import Mathlib

/-!
# Verification of `valargs` (src/lib.rs)

A shallow embedding of the `valargs` command-line argument parser and
proofs of its specified properties.

Rust `String` tokens are modelled as Lean `String`; `Vec<String>` as
`List String`; the `HashMap<String, Option<String>>` of options as an
association list `List (String × Option String)` together with lookup
and overwriting insertion that reproduce the `get` / `contains_key` /
`insert` behaviour of the hash map.

The parsing loop of `Args::parse_raw` is embedded twice:
* `parseIdx` follows the source line by line: a `while i < l` loop over
  an index that is advanced by 1 or 2, with guarded direct indexing
  `raw_args[i]` and a checked lookahead `raw_args.get(i + 1)`;
* `parseAux` is the same loop restated on the suffix of the input that
  is still to be processed; `parseIdx_eq_parseAux` proves the two agree,
  and the remaining proofs use the structural form.
-/

/-- Models Rust `str::starts_with(p)` for a string pattern: the two
prefixes used by the parser, `"-"` and `"--"`, are ASCII, so the Rust
byte-level test coincides with the character-level prefix test. -/
def strStartsWith (s p : String) : Bool := p.data.isPrefixOf s.data

/-- Drop the first `n` characters of `s`. -/
def strDrop (s : String) (n : Nat) : String := String.mk (s.data.drop n)

/-- Models Rust `str::strip_prefix(p)`: `some` of the remainder when `p`
is a prefix of `s`, `none` otherwise. -/
def stripPrefixStr (s p : String) : Option String :=
  if strStartsWith s p then some (strDrop s p.length) else none

/-- Models the marker test of `Args::parse_raw`:
`token.strip_prefix("--").or_else(|| token.strip_prefix("-"))`. -/
def stripMarker (t : String) : Option String :=
  match stripPrefixStr t "--" with
  | some s => some s
  | none => stripPrefixStr t "-"

/-- The `Args` struct: positional arguments and the option map. -/
structure Args where
  args : List String
  options : List (String × Option String)
deriving DecidableEq, Repr

/-- Models `HashMap::insert`: record `k ↦ v`, overwriting any existing
entry for the key `k`. -/
def insertOpt (m : List (String × Option String)) (k : String)
    (v : Option String) : List (String × Option String) :=
  (k, v) :: m.filter (fun p => p.1 != k)

/-- Models `HashMap::get`: the entry for `name`, if any. -/
def lookupOpt : List (String × Option String) → String → Option (Option String)
  | [], _ => none
  | (k, v) :: rest, name => if k = name then some v else lookupOpt rest name

/-- `Args::nth`: `self.args.get(index)`. -/
def Args.nth (a : Args) (index : Nat) : Option String := a.args[index]?

/-- `Args::has_option`: `self.options.contains_key(option_name)`. -/
def Args.has_option (a : Args) (option_name : String) : Bool :=
  (lookupOpt a.options option_name).isSome

/-- `Args::option_value`:
`self.options.get(option_name).and_then(|o| o.as_ref())`. -/
def Args.option_value (a : Args) (option_name : String) : Option String :=
  (lookupOpt a.options option_name).bind id

/-- The `while i < l` loop of `Args::parse_raw`, with the loop state
`(i, args, options)` made explicit: direct indexing `raw_args[i]` is
guarded by the loop condition, the lookahead is the checked
`raw_args.get(i + 1)` filtered by `!s.starts_with("-")`, and the index
advances by 2 when that lookahead is consumed as a value and by 1
otherwise. -/
def parseIdx (raw : List String) (i : Nat) (args : List String)
    (options : List (String × Option String)) : Args :=
  if h : i < raw.length then
    match stripMarker raw[i] with
    | some stripped =>
      match (raw[i + 1]?).filter (fun s => !(strStartsWith s "-")) with
      | some v => parseIdx raw (i + 2) args (insertOpt options stripped (some v))
      | none => parseIdx raw (i + 1) args (insertOpt options stripped none)
    | none => parseIdx raw (i + 1) (args ++ [raw[i]]) options
  else ⟨args, options⟩
termination_by raw.length - i
decreasing_by
  all_goals omega

/-- `Args::parse_raw`: run the loop from index 0 with empty state. -/
def Args.parse_raw (raw_args : List String) : Args := parseIdx raw_args 0 [] []

/-- The parse loop restated on the suffix of the input that remains to
be processed (processing from index `i` is processing `raw.drop i`). -/
def parseAux (args : List String) (options : List (String × Option String)) :
    List String → Args
  | [] => ⟨args, options⟩
  | [t] =>
    match stripMarker t with
    | some stripped => ⟨args, insertOpt options stripped none⟩
    | none => ⟨args ++ [t], options⟩
  | t :: v :: rest2 =>
    match stripMarker t with
    | some stripped =>
      if strStartsWith v "-" then
        parseAux args (insertOpt options stripped none) (v :: rest2)
      else
        parseAux args (insertOpt options stripped (some v)) rest2
    | none => parseAux (args ++ [t]) options (v :: rest2)

/-- The category a token of the input falls into during the parse loop:
consumed as an option name, consumed as an option's value, or appended
to the positional arguments. -/
inductive TokenClass
  | optName
  | optValue
  | positional
deriving DecidableEq, Repr

/-- The classification the parse loop assigns to each input token, in
input order: one category per token. -/
def classify : List String → List TokenClass
  | [] => []
  | [t] =>
    match stripMarker t with
    | some _ => [TokenClass.optName]
    | none => [TokenClass.positional]
  | t :: v :: rest2 =>
    match stripMarker t with
    | some _ =>
      if strStartsWith v "-" then TokenClass.optName :: classify (v :: rest2)
      else TokenClass.optName :: TokenClass.optValue :: classify rest2
    | none => TokenClass.positional :: classify (v :: rest2)

/-- Fuel-bounded version of the parse loop: returns `none` when the fuel
runs out before the loop condition `i < l` fails. One unit of fuel is one
loop iteration. -/
def parseFuel : Nat → List String → Nat → List String →
    List (String × Option String) → Option Args
  | 0, raw, i, args, options =>
    if i < raw.length then none else some ⟨args, options⟩
  | fuel + 1, raw, i, args, options =>
    if h : i < raw.length then
      match stripMarker raw[i] with
      | some stripped =>
        match (raw[i + 1]?).filter (fun s => !(strStartsWith s "-")) with
        | some v => parseFuel fuel raw (i + 2) args (insertOpt options stripped (some v))
        | none => parseFuel fuel raw (i + 1) args (insertOpt options stripped none)
      | none => parseFuel fuel raw (i + 1) (args ++ [raw[i]]) options
    else some ⟨args, options⟩

/-- The loop index after one iteration of the parse loop starting at
index `i`. -/
def nextIdx (raw : List String) (i : Nat) : Nat :=
  match raw[i]? with
  | none => i + 1
  | some token =>
    match stripMarker token with
    | none => i + 1
    | some _ =>
      match (raw[i + 1]?).filter (fun s => !(strStartsWith s "-")) with
      | some _ => i + 2
      | none => i + 1

theorem parseAux_cons_positional (args : List String)
    (options : List (String × Option String)) (t : String) (rest : List String)
    (h : stripMarker t = none) :
    parseAux args options (t :: rest) = parseAux (args ++ [t]) options rest := by
  cases rest <;> simp [parseAux, h]

theorem parseAux_marker_nil (args : List String)
    (options : List (String × Option String)) (t s : String)
    (h : stripMarker t = some s) :
    parseAux args options [t] = ⟨args, insertOpt options s none⟩ := by
  simp [parseAux, h]

theorem parseAux_marker_dash (args : List String)
    (options : List (String × Option String)) (t v : String)
    (rest2 : List String) (s : String)
    (h : stripMarker t = some s) (hv : strStartsWith v "-" = true) :
    parseAux args options (t :: v :: rest2) =
      parseAux args (insertOpt options s none) (v :: rest2) := by
  simp [parseAux, h, hv]

theorem parseAux_marker_val (args : List String)
    (options : List (String × Option String)) (t v : String)
    (rest2 : List String) (s : String)
    (h : stripMarker t = some s) (hv : strStartsWith v "-" = false) :
    parseAux args options (t :: v :: rest2) =
      parseAux args (insertOpt options s (some v)) rest2 := by
  simp [parseAux, h, hv]

theorem parseIdx_eq_parseAux (raw : List String) (i : Nat) (args : List String)
    (options : List (String × Option String)) :
    parseIdx raw i args options = parseAux args options (raw.drop i) := by
  induction i, args, options using parseIdx.induct raw with
  | case1 i args options h s hstrip v hfilter ih =>
    obtain ⟨hmem, hpv⟩ := Option.filter_eq_some.mp hfilter
    have hget : raw[i + 1]? = some v := hmem ▸ rfl
    have h1 : i + 1 < raw.length := (List.getElem?_eq_some.mp hget).1
    have hv : raw[i + 1] = v := (List.getElem?_eq_some.mp hget).2
    have hpv' : strStartsWith v "-" = false := by
      simpa using hpv
    have hd : raw.drop i = raw[i] :: v :: raw.drop (i + 2) := by
      rw [List.drop_eq_getElem_cons h, List.drop_eq_getElem_cons h1, hv]
    rw [parseIdx, dif_pos h]
    simp only [hstrip, hfilter]
    rw [ih, hd, parseAux_marker_val _ _ _ _ _ _ hstrip hpv']
  | case2 i args options h s hstrip hfilter ih =>
    rw [parseIdx, dif_pos h]
    simp only [hstrip, hfilter]
    rw [ih, List.drop_eq_getElem_cons h]
    cases hget : raw[i + 1]? with
    | none =>
      have hlen : raw.length ≤ i + 1 := List.getElem?_eq_none_iff.mp hget
      rw [List.drop_eq_nil_of_le hlen, parseAux_marker_nil _ _ _ _ hstrip, parseAux]
    | some v =>
      have h1 : i + 1 < raw.length := (List.getElem?_eq_some.mp hget).1
      have hv : raw[i + 1] = v := (List.getElem?_eq_some.mp hget).2
      have hpv : strStartsWith v "-" = true := by
        rw [hget] at hfilter
        simpa using hfilter
      have hd : raw.drop (i + 1) = v :: raw.drop (i + 2) := by
        rw [List.drop_eq_getElem_cons h1, hv]
      rw [hd, parseAux_marker_dash _ _ _ _ _ _ hstrip hpv, ← hd]
  | case3 i args options h hstrip ih =>
    rw [parseIdx, dif_pos h]
    simp only [hstrip]
    rw [ih, List.drop_eq_getElem_cons h,
      parseAux_cons_positional _ _ _ _ hstrip]
  | case4 i args options h =>
    rw [parseIdx, dif_neg h, List.drop_eq_nil_of_le (Nat.le_of_not_lt h), parseAux]

theorem parse_raw_eq_parseAux (raw : List String) :
    Args.parse_raw raw = parseAux [] [] raw := by
  rw [Args.parse_raw, parseIdx_eq_parseAux, List.drop_zero]

theorem lookupOpt_filter_ne (m : List (String × Option String)) (k k' : String)
    (hne : k ≠ k') :
    lookupOpt (m.filter (fun p => p.1 != k)) k' = lookupOpt m k' := by
  induction m with
  | nil => rfl
  | cons p rest ih =>
    obtain ⟨a, b⟩ := p
    by_cases ha : a = k
    · subst ha
      have : a ≠ k' := hne
      simp [lookupOpt, this, ih]
    · simp [List.filter_cons, ha, lookupOpt, ih]

theorem lookupOpt_insertOpt (m : List (String × Option String)) (k k' : String)
    (v : Option String) :
    lookupOpt (insertOpt m k v) k' = if k = k' then some v else lookupOpt m k' := by
  by_cases h : k = k'
  · subst h; simp [insertOpt, lookupOpt]
  · simp [insertOpt, lookupOpt, h, lookupOpt_filter_ne m k k' h]

-- general Args-level helpers
theorem has_option_of_option_value_aux (a : Args) (name v : String)
    (h : a.option_value name = some v) : a.has_option name = true := by
  rw [Args.option_value] at h
  rw [Args.has_option]
  cases hl : lookupOpt a.options name with
  | none => rw [hl] at h; simp at h
  | some o => simp

/-- Claim C4: marker classification is longest-prefix-first: a token
beginning with "--" has exactly its first two characters stripped, otherwise
a token beginning with "-" has exactly its first character stripped, and the
remaining substring — possibly empty or containing further dashes — is the
option name recorded by the parse; a lone "-" or "--" yields an option keyed
by the empty string. -/
theorem marker_longest_first :
    (∀ t : String, strStartsWith t "--" = true → stripMarker t = some (strDrop t 2)) ∧
    (∀ t : String, strStartsWith t "--" = false → strStartsWith t "-" = true →
      stripMarker t = some (strDrop t 1)) ∧
    (∀ t s : String, stripMarker t = some s →
      (Args.parse_raw [t]).has_option s = true) ∧
    ((Args.parse_raw ["-"]).has_option "" = true ∧
     (Args.parse_raw ["--"]).has_option "" = true) := by
  refine ⟨?_, ?_, ?_, ?_, ?_⟩
  · intro t h
    simp [stripMarker, stripPrefixStr, h]
    rfl
  · intro t h2 h1
    simp [stripMarker, stripPrefixStr, h2, h1]
    rfl
  · intro t s h
    rw [parse_raw_eq_parseAux, parseAux_marker_nil _ _ _ _ h]
    simp [Args.has_option, lookupOpt_insertOpt]
  · rw [parse_raw_eq_parseAux]
    decide
  · rw [parse_raw_eq_parseAux]
    decide

theorem marker_longest_first_witness :
    stripMarker "--opt-x" = some "opt-x" ∧ stripMarker "-v" = some "v" ∧
    (Args.parse_raw ["--opt-x"]).has_option "opt-x" = true := by
  refine ⟨?_, ?_, ?_⟩
  · have h := marker_longest_first.1 "--opt-x" (by decide)
    rw [h]; decide
  · have h := marker_longest_first.2.1 "-v" (by decide) (by decide)
    rw [h]; decide
  · exact marker_longest_first.2.2.1 "--opt-x" "opt-x" (by decide)

/-- Claim C5: when the same option name occurs more than once, the later
occurrence overwrites the earlier one in the option map; in particular
parsing ["--x","1","--x","2"] gives value "2" for "x". -/
theorem later_option_overwrites :
    (∀ (m : List (String × Option String)) (k : String) (v1 v2 : Option String),
      lookupOpt (insertOpt (insertOpt m k v1) k v2) k = some v2) ∧
    (Args.parse_raw ["--x", "1", "--x", "2"]).option_value "x" = some "2" := by
  constructor
  · intro m k v1 v2
    simp [lookupOpt_insertOpt]
  · rw [parse_raw_eq_parseAux]
    decide

/-- Claim C6: option_value returns the associated value exactly when the
name is a key of the option map with an associated value, and returns none
both when the key is absent and when the key is present without a value,
without distinguishing the two cases in its return type. -/
theorem option_value_contract (a : Args) (name : String) :
    (∀ v : String, a.option_value name = some v ↔
      lookupOpt a.options name = some (some v)) ∧
    (lookupOpt a.options name = none → a.option_value name = none) ∧
    (lookupOpt a.options name = some none → a.option_value name = none) := by
  refine ⟨fun v => ?_, fun h => ?_, fun h => ?_⟩
  · cases hl : lookupOpt a.options name with
    | none => simp [Args.option_value, hl]
    | some o => cases o <;> simp [Args.option_value, hl]
  · simp [Args.option_value, h]
  · simp [Args.option_value, h]

theorem option_value_contract_witness :
    (Args.mk [] [("k", some "w")]).option_value "k" = some "w" ∧
    (Args.mk [] [("k", none)]).option_value "k" = none ∧
    (Args.mk [] []).option_value "k" = none := by
  refine ⟨?_, ?_, ?_⟩
  · exact ((option_value_contract (Args.mk [] [("k", some "w")]) "k").1 "w").mpr (by decide)
  · exact (option_value_contract (Args.mk [] [("k", none)]) "k").2.2 (by decide)
  · exact (option_value_contract (Args.mk [] []) "k").2.1 (by decide)

/-- Claim C7: nth returns the positional token at the given zero-based
index, and returns none for every index at or beyond the length of the
positional sequence; it is a pure accessor with no mutation or side
effects. -/
theorem nth_contract (a : Args) (index : Nat) :
    (a.args.length ≤ index → a.nth index = none) ∧
    (∀ h : index < a.args.length, a.nth index = some (a.args.get ⟨index, h⟩)) := by
  constructor
  · intro h
    simp [Args.nth, List.getElem?_eq_none_iff, h]
  · intro h
    simp [Args.nth, List.getElem?_eq_getElem h]

theorem nth_contract_witness :
    (Args.mk ["exec"] []).nth 1 = none ∧ (Args.mk ["exec"] []).nth 0 = some "exec" := by
  constructor
  · exact (nth_contract (Args.mk ["exec"] []) 1).1 (by decide)
  · have h := (nth_contract (Args.mk ["exec"] []) 0).2 (by decide)
    simpa using h

/-- Claim C8: parsing is deterministic: parsing the same token sequence
twice yields equal positional sequences and equal option maps. -/
theorem parse_raw_deterministic (l1 l2 : List String) (h : l1 = l2) :
    (Args.parse_raw l1).args = (Args.parse_raw l2).args ∧
    (Args.parse_raw l1).options = (Args.parse_raw l2).options := by
  subst h; exact ⟨rfl, rfl⟩

theorem parse_raw_deterministic_witness :
    (Args.parse_raw ["-a"]).args = (Args.parse_raw ["-a"]).args ∧
    (Args.parse_raw ["-a"]).options = (Args.parse_raw ["-a"]).options :=
  parse_raw_deterministic ["-a"] ["-a"] rfl

/-- Claim C9: for every input token sequence and every name, if
option_value returns a value then has_option returns true for the same name:
the two accessors are never contradictory on the same parsed result. -/
theorem option_value_implies_has_option (l : List String) (name v : String)
    (h : (Args.parse_raw l).option_value name = some v) :
    (Args.parse_raw l).has_option name = true :=
  has_option_of_option_value_aux (Args.parse_raw l) name v h

theorem option_value_implies_has_option_witness :
    (Args.parse_raw ["--x", "1"]).has_option "x" = true := by
  apply option_value_implies_has_option ["--x", "1"] "x" "1"
  rw [parse_raw_eq_parseAux]
  decide

theorem classify_length (l : List String) : (classify l).length = l.length := by
  induction l using classify.induct with
  | case1 => rfl
  | case2 t s h => simp [classify, h]
  | case3 t h => simp [classify, h]
  | case4 t v rest2 s h hv ih => simp [classify, h, hv, ih]
  | case5 t v rest2 s h hv ih => simp [classify, h, hv, ih]
  | case6 t v rest2 h ih => simp [classify, h, ih]

theorem count_three_classes (cs : List TokenClass) :
    cs.count TokenClass.optName + cs.count TokenClass.optValue +
      cs.count TokenClass.positional = cs.length := by
  induction cs with
  | nil => rfl
  | cons c rest ih => cases c <;> simp [List.count_cons, ih] <;> omega

def positionalTokens (l : List String) : List String :=
  ((l.zip (classify l)).filter (fun p => p.2 == TokenClass.positional)).map Prod.fst

theorem parseAux_args_eq (args : List String)
    (options : List (String × Option String)) (l : List String) :
    (parseAux args options l).args = args ++ positionalTokens l := by
  induction args, options, l using parseAux.induct with
  | case1 args options => simp [parseAux, positionalTokens]
  | case2 args options t s h => simp [parseAux, positionalTokens, classify, h]
  | case3 args options t h => simp [parseAux, positionalTokens, classify, h]
  | case4 args options t v rest2 s h hv ih =>
    rw [parseAux_marker_dash _ _ _ _ _ _ h hv, ih]
    simp [positionalTokens, classify, h, hv]
  | case5 args options t v rest2 s h hv ih =>
    rw [parseAux_marker_val _ _ _ _ _ _ h (by simpa using hv), ih]
    simp [positionalTokens, classify, h, hv]
  | case6 args options t v rest2 h ih =>
    rw [parseAux_cons_positional _ _ _ _ h, ih]
    simp [positionalTokens, classify, h]

/-- Claim C1: every input token is classified into exactly one of the three
categories (consumed as an option name, consumed as an option's value, or
appended to the positional sequence): the classification assigns one category
per token, the three category counts add up to the input length, and the
positional arguments of the parsed result are exactly the tokens classified
positional, in input order — no token is dropped or duplicated. -/
theorem parse_classification_complete (l : List String) :
    (classify l).length = l.length ∧
    ((classify l).count TokenClass.optName + (classify l).count TokenClass.optValue +
      (classify l).count TokenClass.positional = l.length) ∧
    (Args.parse_raw l).args = positionalTokens l := by
  refine ⟨classify_length l, ?_, ?_⟩
  · rw [count_three_classes, classify_length]
  · rw [parse_raw_eq_parseAux, parseAux_args_eq]
    rfl

/-- Claim C2: parsing ["exec","arg1","arg2","--option0","option0_value",
"arg3","-o"] yields the positional sequence ["exec","arg1","arg2","arg3"],
option value "option0_value" for "option0", a present option "o", and no
value for "o". -/
theorem parse_example_run :
    (Args.parse_raw ["exec", "arg1", "arg2", "--option0", "option0_value",
        "arg3", "-o"]).args = ["exec", "arg1", "arg2", "arg3"] ∧
    (Args.parse_raw ["exec", "arg1", "arg2", "--option0", "option0_value",
        "arg3", "-o"]).option_value "option0" = some "option0_value" ∧
    (Args.parse_raw ["exec", "arg1", "arg2", "--option0", "option0_value",
        "arg3", "-o"]).has_option "o" = true ∧
    (Args.parse_raw ["exec", "arg1", "arg2", "--option0", "option0_value",
        "arg3", "-o"]).option_value "o" = none := by
  simp only [parse_raw_eq_parseAux]
  decide

/-- Claim C3: an option marker consumes the immediately following token as
its value exactly when that token exists and does not itself begin with "-"
(in which case the value is associated with the option name and the token is
never separately classified); a marker immediately followed by another marker
gets no value and the second marker is classified on its own, so
["--a","--b"] yields option "a" present without value and option "b"
present. -/
theorem option_value_consumption :
    (∀ (t v : String) (rest : List String), (stripMarker t).isSome = true →
      classify (t :: v :: rest) =
        (if strStartsWith v "-" = true then
          TokenClass.optName :: classify (v :: rest)
        else TokenClass.optName :: TokenClass.optValue :: classify rest)) ∧
    (∀ t : String, (stripMarker t).isSome = true →
      classify [t] = [TokenClass.optName]) ∧
    (∀ (t v s : String), stripMarker t = some s → strStartsWith v "-" = false →
      (Args.parse_raw [t, v]).option_value s = some v) ∧
    ((Args.parse_raw ["--a", "--b"]).has_option "a" = true ∧
     (Args.parse_raw ["--a", "--b"]).option_value "a" = none ∧
     (Args.parse_raw ["--a", "--b"]).has_option "b" = true) := by
  refine ⟨?_, ?_, ?_, ?_⟩
  · intro t v rest h
    obtain ⟨s, hs⟩ := Option.isSome_iff_exists.mp h
    by_cases hv : strStartsWith v "-" = true
    · simp [classify, hs, hv]
    · simp [classify, hs, hv]
  · intro t h
    obtain ⟨s, hs⟩ := Option.isSome_iff_exists.mp h
    simp [classify, hs]
  · intro t v s hs hv
    rw [parse_raw_eq_parseAux, parseAux_marker_val _ _ _ _ _ _ hs hv, parseAux]
    simp [Args.option_value, lookupOpt_insertOpt]
  · refine ⟨?_, ?_, ?_⟩ <;> (rw [parse_raw_eq_parseAux]; decide)

theorem option_value_consumption_witness :
    classify ["-x", "y"] = [TokenClass.optName, TokenClass.optValue] ∧
    classify ["-x"] = [TokenClass.optName] ∧
    (Args.parse_raw ["-x", "y"]).option_value "x" = some "y" := by
  refine ⟨?_, ?_, ?_⟩
  · have h := option_value_consumption.1 "-x" "y" [] (by decide)
    rw [h, if_neg]
    · decide
    · decide
  · exact option_value_consumption.2.1 "-x" (by decide)
  · exact option_value_consumption.2.2.1 "-x" "y" "x" (by decide) (by decide)

theorem parseFuel_complete (fuel : Nat) (raw : List String) (i : Nat)
    (args : List String) (options : List (String × Option String)) :
    raw.length ≤ i + fuel →
    parseFuel fuel raw i args options = some (parseIdx raw i args options) := by
  induction fuel, raw, i, args, options using parseFuel.induct with
  | case1 raw i args options h =>
    intro hle
    omega
  | case2 raw i args options h =>
    intro _
    rw [parseFuel, if_neg h, parseIdx, dif_neg h]
  | case3 fuel raw i args options h s hstrip v hfilter ih =>
    intro hle
    have hout : parseIdx raw i args options =
        parseIdx raw (i + 2) args (insertOpt options s (some v)) := by
      rw [parseIdx, dif_pos h]
      simp only [hstrip, hfilter]
    rw [parseFuel, dif_pos h]
    simp only [hstrip, hfilter]
    rw [ih (by omega), hout]
  | case4 fuel raw i args options h s hstrip hfilter ih =>
    intro hle
    have hout : parseIdx raw i args options =
        parseIdx raw (i + 1) args (insertOpt options s none) := by
      rw [parseIdx, dif_pos h]
      simp only [hstrip, hfilter]
    rw [parseFuel, dif_pos h]
    simp only [hstrip, hfilter]
    rw [ih (by omega), hout]
  | case5 fuel raw i args options h hstrip ih =>
    intro hle
    have hout : parseIdx raw i args options =
        parseIdx raw (i + 1) (args ++ [raw[i]]) options := by
      rw [parseIdx, dif_pos h]
      simp only [hstrip]
    rw [parseFuel, dif_pos h]
    simp only [hstrip]
    rw [ih (by omega), hout]
  | case6 fuel raw i args options h =>
    intro _
    rw [parseFuel, dif_neg h, parseIdx, dif_neg h]

/-- Claim C10: the parse loop is total: its index strictly increases by one
or two on every iteration, so the loop finishes within length-many
iterations — the fuel-bounded loop given length-many units of fuel does not
run out and computes the parse result; all indexing in the embedded loop is
guarded by the loop condition or uses a checked lookup. -/
theorem parse_raw_terminates (raw : List String) :
    (∀ i : Nat, i < nextIdx raw i ∧ nextIdx raw i ≤ i + 2) ∧
    parseFuel raw.length raw 0 [] [] = some (Args.parse_raw raw) := by
  constructor
  · intro i
    unfold nextIdx
    repeat' split
    all_goals omega
  · rw [Args.parse_raw]
    exact parseFuel_complete raw.length raw 0 [] [] (by omega)
